import Mathlib

/-!
Verification development for the h1b_statistics repository.

Shallow embedding of the source files src/iterators.py and
src/h1b_counting.py: the CleanReader row cleaning, the ExtendedCounter,
the MultiFileCounter (alias resolution, constraint evaluation, multi-file
counting) and the report generation gen_counter_text.

Strings are Lean strings (the program preprocesses every entry down to
ASCII, where Lean and Python agree on ordering, upper and lower casing).
Python dictionaries are modelled as insertion-ordered association lists,
Python floats as rationals, and raised exceptions as an explicit error
type threaded through Except or returned alongside the mutated state.
-/

/- The rational arithmetic of the library is shipped irreducible; the
closed evaluations below (counterexamples and witnesses computing percent
strings) need it to unfold definitionally. -/
attribute [local semireducible] Rat.mul Rat.add Rat.sub Rat.inv

/-- Python exceptions that the embedded code can raise. The constructor
schemaMismatch models the StopIteration escaping the bare next call in
MultiFileCounter.alias_dict when no header column matches a candidate
list; the specification names that failure SchemaMismatchError. -/
inductive PyError where
  | keyError
  | attributeError
  | valueError
  | typeError
  | schemaMismatch
  | zeroDivisionError
  | unicodeEncodeError
  deriving DecidableEq, Repr

/-- First-occurrence lookup in an insertion-ordered association list,
modelling Python dictionary access (our dictionaries keep keys unique, so
first occurrence is the occurrence). -/
def alookup {β : Type} : List (String × β) → String → Option β
  | [], _ => none
  | (k, v) :: r, a => if a = k then some v else alookup r a

/-- Python dictionary assignment d[k] = v: replace the value at an existing
key in place (keeping its position) or append a new entry at the end. -/
def dictUpdate {β : Type} : List (String × β) → String → β → List (String × β)
  | [], k, v => [(k, v)]
  | (a, b) :: r, k, v =>
    if a = k then (a, v) :: r else (a, b) :: dictUpdate r k v

/-- Index of the last occurrence of a key in a list. Python csv.DictReader
builds each row dictionary as dict(zip(fieldnames, row)) and then pads
missing trailing fields with None, so for a duplicated header name the
surviving value is the one at the last occurrence. -/
def lastIdx? : List String → String → Option Nat
  | [], _ => none
  | a :: as, x =>
    match lastIdx? as x with
    | some i => some (i + 1)
    | none => if a = x then some 0 else none

/-- Encoding-error modes of CleanReader (the errors parameter passed to
str.encode): strict raises on a non-ASCII character, replace substitutes
a question mark. -/
inductive Preproc where
  | strict
  | replace
  deriving DecidableEq, Repr

/-- Whether every character of the string is ASCII (written over the
character list so that it evaluates by kernel reduction). -/
def isAsciiStr (s : String) : Bool := s.data.all (fun c => c.toNat < 128)

/-- Python str.strip: drop whitespace from both ends (list-based version
of trimming). -/
def pyStrip (s : String) : String :=
  ⟨((s.data.dropWhile Char.isWhitespace).reverse.dropWhile
      Char.isWhitespace).reverse⟩

/-- Python str.lower on ASCII text (characterwise). -/
def pyLower (s : String) : String := ⟨s.data.map Char.toLower⟩

/-- Python str.upper on ASCII text (characterwise). -/
def pyUpper (s : String) : String := ⟨s.data.map Char.toUpper⟩

/-- Lexicographic strict comparison of character lists by code point. -/
def lexLt : List Char → List Char → Bool
  | [], [] => false
  | [], _ :: _ => true
  | _ :: _, [] => false
  | a :: as, b :: bs =>
    if a.toNat < b.toNat then true
    else if b.toNat < a.toNat then false
    else lexLt as bs

/-- Python string comparison: strict lexicographic order by code point
(written directly so that it evaluates by kernel reduction). -/
def strLt (s t : String) : Bool := lexLt s.data t.data

/-- CleanReader.preprocess_text: encode to ASCII (raising or substituting
according to the mode), strip surrounding whitespace, lowercase. -/
def preprocess_text (mode : Preproc) (s : String) : Except PyError String :=
  match mode with
  | .strict =>
    if isAsciiStr s then .ok (pyLower (pyStrip s))
    else .error .unicodeEncodeError
  | .replace =>
    .ok (pyLower (pyStrip ⟨s.data.map (fun c => if c.toNat < 128 then c else '?')⟩))

/-- Value of a digit-only character list. -/
def parseDigits : List Char → Option Nat
  | [] => none
  | cs =>
    if cs.all Char.isDigit then
      some (cs.foldl (fun n c => 10 * n + (c.toNat - 48)) 0)
    else none

/-- Decimal part of the Python float builtin: digits with an optional
fractional part, at least one digit overall. -/
def parseFloatCore (cs : List Char) : Option ℚ :=
  let ip := cs.takeWhile (fun c => c ≠ '.')
  let rest := cs.dropWhile (fun c => c ≠ '.')
  match rest with
  | [] => (parseDigits ip).map (fun n => (n : ℚ))
  | _ :: frac =>
    if ip = [] ∧ frac = [] then none
    else
      let ipv : Option Nat := if ip = [] then some 0 else parseDigits ip
      let fpv : Option (Nat × Nat) :=
        if frac = [] then some (0, 0)
        else (parseDigits frac).map (fun n => (n, frac.length))
      match ipv, fpv with
      | some i, some (f, k) => some ((i : ℚ) + (f : ℚ) / ((10 : ℚ) ^ k))
      | _, _ => none

/-- Model of the Python float builtin applied to a string, as used by
constraints_satisfied: surrounding whitespace stripped, optional sign,
decimal digits with an optional fractional part. (Exponents, underscores,
inf and nan are outside the fragment this program exercises.) Returns
none where Python raises ValueError. -/
def parseFloat? (s : String) : Option ℚ :=
  match (pyStrip s).data with
  | '-' :: rest => (parseFloatCore rest).map Neg.neg
  | '+' :: rest => parseFloatCore rest
  | cs => parseFloatCore cs

/-- Model of the external dateutil parser.parse on ISO dates YYYY-MM-DD,
encoded as the integer y * 10000 + m * 100 + d, which orders dates of this
shape chronologically. Returns none where the library raises. -/
def parseTimestamp? (s : String) : Option Int :=
  let parts := ((pyStrip s).data.splitOn '-').map (fun cs => parseDigits cs)
  match parts with
  | [some y, some m, some d] => some ((y : Int) * 10000 + (m : Int) * 100 + d)
  | _ => none

/-- Python runtime values appearing in constraint comparisons: the row
entry strings and the numeric, textual or timestamp comparison values. -/
inductive PyVal where
  | str (s : String)
  | int (n : Int)
  | float (q : ℚ)
  | datetime (t : Int)
  deriving DecidableEq, Repr

/-- The five comparison operators of MultiFileCounter.cmp_dict. -/
inductive CmpOp where
  | eq
  | le
  | ge
  | lt
  | gt
  deriving DecidableEq, Repr

/-- MultiFileCounter.cmp_dict: operator symbol to operator. -/
def cmp_dict : List (String × CmpOp) :=
  [("==", .eq), ("<=", .le), (">=", .ge), ("<", .lt), (">", .gt)]

/-- Python equality between runtime values: same-type comparison, numeric
cross-type comparison between int and float, False across unrelated
types. -/
def pyEq : PyVal → PyVal → Bool
  | .str s, .str t => s = t
  | .int m, .int n => m = n
  | .float p, .float q => p = q
  | .int m, .float q => (m : ℚ) = q
  | .float p, .int n => p = (n : ℚ)
  | .datetime x, .datetime y => x = y
  | _, _ => false

/-- One ordered comparison in a linear order, selected by operator. -/
def cmpOrd {α : Type} [LinearOrder α] (c : CmpOp) (x y : α) : Bool :=
  match c with
  | .eq => x = y
  | .le => x ≤ y
  | .ge => y ≤ x
  | .lt => x < y
  | .gt => y < x

/-- The ordered comparison on Python strings, by code point. -/
def cmpOrdStr (c : CmpOp) (x y : String) : Bool :=
  match c with
  | .eq => x = y
  | .le => !(strLt y x)
  | .ge => !(strLt x y)
  | .lt => strLt x y
  | .gt => strLt y x

/-- Python comparison dispatch for con.cmp(entry, con.val): equality never
raises; ordered comparisons work within strings, within numerics (int and
float mixing), within datetimes, and raise TypeError across unrelated
types (in particular between a string and an int). -/
def pyCmp (c : CmpOp) (a b : PyVal) : Except PyError Bool :=
  match c with
  | .eq => .ok (pyEq a b)
  | _ =>
    match a, b with
    | .str s, .str t => .ok (cmpOrdStr c s t)
    | .int m, .int n => .ok (cmpOrd c m n)
    | .float p, .float q => .ok (cmpOrd c p q)
    | .int m, .float q => .ok (cmpOrd c (m : ℚ) q)
    | .float p, .int n => .ok (cmpOrd c p ((n : Int) : ℚ))
    | .datetime x, .datetime y => .ok (cmpOrd c x y)
    | _, _ => .error .typeError

/-- A constraint as built by MultiFileCounter.add_constraint: alias,
comparison operator, comparison value. The field al is the source field
named alias, renamed because alias is a Lean keyword. -/
structure Constraint where
  al : String
  cmp : CmpOp
  val : PyVal
  deriving DecidableEq, Repr

/-- MultiFileCounter.add_constraint: look the operator symbol up in
cmp_dict (KeyError when absent) and append the constraint. -/
def add_constraint (cons : List Constraint) (a : String) (cmp : String)
    (val : PyVal) : Except PyError (List Constraint) :=
  match alookup cmp_dict cmp with
  | some c => .ok (cons ++ [⟨a, c, val⟩])
  | none => .error .keyError

/-- Left-to-right effectful map over a list in the Except monad: the
model of a Python comprehension or generator whose body can raise, where
the first raised exception propagates. -/
def mapExcept {α β : Type} (f : α → Except PyError β) :
    List α → Except PyError (List β)
  | [] => .ok []
  | a :: as => do
    let b ← f a
    let bs ← mapExcept f as
    .ok (b :: bs)

/-- A normalized record as yielded by CleanReader: aliases paired with
cleaned entry strings, in column order (the namedtuple RowTup). -/
abbrev Record := List (String × String)

/-- Python getattr on the row namedtuple: the value at the alias, or
AttributeError when the namedtuple has no such field. -/
def getattr_ (rec : Record) (a : String) : Except PyError String :=
  match alookup rec a with
  | some v => .ok v
  | none => .error .attributeError

/-- The body of the constraint loop in
MultiFileCounter.constraints_satisfied for one constraint: fetch the row
entry; when the comparison value is a float, coerce the entry with the
float builtin (the isinstance check in the source names float only, and
the entry, always a string here, is never an int); when it is a datetime,
parse the entry; otherwise leave the entry a string; then apply the
comparison operator. -/
def evalConstraint (row : Record) (con : Constraint) : Except PyError Bool := do
  let entry ← getattr_ row con.al
  let e : PyVal ←
    match con.val with
    | .float _ =>
      match parseFloat? entry with
      | some q => pure (PyVal.float q)
      | none => Except.error .valueError
    | .datetime _ =>
      match parseTimestamp? entry with
      | some t => pure (PyVal.datetime t)
      | none => Except.error .valueError
    | _ => pure (PyVal.str entry)
  pyCmp con.cmp e con.val

/-- The list of booleans built by the constraint loop, left to right; the
first raised exception propagates. -/
def evalAll (row : Record) : List Constraint → Except PyError (List Bool)
  | [] => .ok []
  | c :: cs => do
    let b ← evalConstraint row c
    let bs ← evalAll row cs
    .ok (b :: bs)

/-- MultiFileCounter.constraints_satisfied: True for an empty constraint
list, otherwise the conjunction of the individual constraint booleans. -/
def constraints_satisfied (cons : List Constraint) (row : Record) :
    Except PyError Bool :=
  if cons.isEmpty then .ok true
  else do
    let bs ← evalAll row cons
    .ok (bs.all id)

/-- A delimited input file: the header row followed by the data rows
(both as produced by the csv reader with delimiter semicolon). -/
structure CSVFile where
  header : List String
  rows : List (List String)
  deriving DecidableEq, Repr

/-- Value of one column of one data row under csv.DictReader: KeyError
when the column is not a header field at all; otherwise the entry at the
(last) position of that header name, or the None fill value (modelled as
the none case of the Option) when the row is shorter. -/
def dictGet (header row : List String) (col : String) :
    Except PyError (Option String) :=
  match lastIdx? header col with
  | none => .error .keyError
  | some i => .ok row[i]?

/-- One data row through CleanReader: for each column of interest fetch
the DictReader value and preprocess it (preprocessing the None fill value
of a short row raises AttributeError, since None has no encode method),
then zip the cleaned values with the reader aliases into the RowTup
record. No column-count validation is performed anywhere. -/
def cleanRow (mode : Preproc) (header cols aliases : List String)
    (row : List String) : Except PyError Record := do
  let vals ← mapExcept (fun col => do
    match (← dictGet header row col) with
    | none => Except.error PyError.attributeError
    | some s => preprocess_text mode s) cols
  .ok (aliases.zip vals)

/-- An ExtendedCounter: observed values paired with their counts, in
insertion order (Python Counter is an insertion-ordered dictionary). -/
abbrev CounterL := List (String × Nat)

/-- The counters dictionary of a MultiFileCounter: counter aliases paired
with their ExtendedCounters, in insertion order. -/
abbrev Counters := List (String × CounterL)

/-- Python Counter access c[v]: the stored count, or zero for a missing
key. -/
def getCount : CounterL → String → Nat
  | [], _ => 0
  | (a, n) :: r, k => if k = a then n else getCount r k

/-- Python Counter increment c[v] += 1: bump the existing entry in place,
or append a fresh entry with count one at the end. -/
def bump : CounterL → String → CounterL
  | [], k => [(k, 1)]
  | (a, n) :: r, k => if k = a then (a, n + 1) :: r else (a, n) :: bump r k

/-- sum of counter.values(). -/
def sumValues (c : CounterL) : Nat := (c.map Prod.snd).sum

/-- MultiFileCounter.add_counter: unconditionally assign a fresh empty
ExtendedCounter at the alias, replacing any counter already registered
there. -/
def add_counter (cs : Counters) (counter_alias : String) : Counters :=
  dictUpdate cs counter_alias []

/-- The alias registry colname_list_dict: aliases paired with their
candidate column-name lists, in insertion order, or none when the
MultiFileCounter was constructed without one. -/
abbrev Registry := Option (List (String × List String))

/-- The configuration a counting run reads: the registry and the
constraint list (the files and counters are passed separately). -/
structure MFCConfig where
  colname_list_dict : Registry
  constraints : List Constraint
  deriving DecidableEq, Repr

/-- The MultiFileCounter.aliases property: the keys of
colname_list_dict, raising AttributeError when the registry is None. -/
def mfcAliases (reg : Registry) : Except PyError (List String) :=
  match reg with
  | none => .error .attributeError
  | some d => .ok (d.map Prod.fst)

/-- The loop of MultiFileCounter.alias_dict over the required aliases:
for each alias take the first header column contained in its candidate
list (the bare next call raises on exhaustion, surfacing the schema
mismatch) and assign colname to alias in the accumulating dictionary. -/
def resolveAliases (header : List String) :
    List (String × List String) → List (String × String) →
    Except PyError (List (String × String))
  | [], acc => .ok acc
  | (al, cands) :: rest, acc =>
    match header.find? (fun c => cands.contains c) with
    | none => .error .schemaMismatch
    | some col => resolveAliases header rest (dictUpdate acc col al)

/-- MultiFileCounter.alias_dict for one file: with a truthy (nonempty)
registry, resolve every alias against the file header; with a falsy one,
build the identity dictionary over self.aliases, which for an empty
registry is the empty dictionary and for a None registry raises
AttributeError (None has no keys method). -/
def alias_dict (reg : Registry) (header : List String) :
    Except PyError (List (String × String)) :=
  match reg with
  | none => .error .attributeError
  | some d => if d.isEmpty then .ok [] else resolveAliases header d []

/-- MultiFileCounter.colname_dict: invert the alias dictionary by a dict
comprehension over its items (a later alias sharing a colname would have
overwritten the earlier one already in alias_dict). -/
def colnameDictOf (ad : List (String × String)) : List (String × String) :=
  ad.foldl (fun m p => dictUpdate m p.2 p.1) []

/-- The per-file schema work at the top of MultiFileCounter.iteration:
alias_dict, colname_dict, the colname list for the required aliases
(KeyError on a missing dictionary key) and the reader aliases computed by
CleanReader from the colnames. Depends only on the configuration and the
file header. -/
def resolveFile (cfg : MFCConfig) (header : List String) :
    Except PyError (List String × List String) := do
  let ad ← alias_dict cfg.colname_list_dict header
  let als ← mfcAliases cfg.colname_list_dict
  let cd := colnameDictOf ad
  let colnames ← mapExcept (fun a =>
    match alookup cd a with
    | some c => Except.ok c
    | none => Except.error PyError.keyError) als
  let raliases ← mapExcept (fun col =>
    match alookup ad col with
    | some a => Except.ok a
    | none => Except.error PyError.keyError) colnames
  .ok (colnames, raliases)

/-- The counter-update loop for one admitted row: for every tracked
alias, in dictionary order, increment that counter at the row value of
the alias; a getattr failure aborts the loop, keeping the increments
already applied (in-place mutation). -/
def updateCounters (rec : Record) : Counters → Counters × Option PyError
  | [] => ([], none)
  | (a, cnt) :: rest =>
    match getattr_ rec a with
    | .error e => ((a, cnt) :: rest, some e)
    | .ok v =>
      match updateCounters rec rest with
      | (rest1, err) => ((a, bump cnt v) :: rest1, err)

/-- The row loop of MultiFileCounter.iteration for one file: clean each
row, check the constraints, update the counters of admitted rows. An
exception stops the run, keeping the counter state reached so far. -/
def processRows (cons : List Constraint) (header cols raliases : List String) :
    List (List String) → Counters → Counters × Option PyError
  | [], cs => (cs, none)
  | row :: rest, cs =>
    match cleanRow .strict header cols raliases row with
    | .error e => (cs, some e)
    | .ok rec =>
      match constraints_satisfied cons rec with
      | .error e => (cs, some e)
      | .ok b =>
        if b then
          match updateCounters rec cs with
          | (cs1, some e) => (cs1, some e)
          | (cs1, none) => processRows cons header cols raliases rest cs1
        else processRows cons header cols raliases rest cs

/-- One file of MultiFileCounter.iteration: resolve the schema (an error
aborts before any row is read) and then stream the rows. -/
def processFile (cfg : MFCConfig) (cs : Counters) (f : CSVFile) :
    Counters × Option PyError :=
  match resolveFile cfg f.header with
  | .error e => (cs, some e)
  | .ok (colnames, raliases) =>
    processRows cfg.constraints f.header colnames raliases f.rows cs

/-- MultiFileCounter.count: drive the iteration over all files in order,
threading the counters and incrementing files_parsed after each completed
file; an exception propagates, keeping the mutated state. -/
def countFiles (cfg : MFCConfig) :
    List CSVFile → Counters → Nat → Counters × Nat × Option PyError
  | [], cs, fp => (cs, fp, none)
  | f :: rest, cs, fp =>
    match processFile cfg cs f with
    | (cs1, some e) => (cs1, fp, some e)
    | (cs1, none) => countFiles cfg rest cs1 (fp + 1)

/-- Floor of the base-two logarithm of a positive natural number,
written with a structural fuel argument so that it evaluates by kernel
reduction (the fuel n always suffices, as halving reaches one within n
steps). -/
def natLog2F : Nat → Nat → Nat
  | 0, _ => 0
  | fuel + 1, n => if 2 ≤ n then natLog2F fuel (n / 2) + 1 else 0

/-- Floor of the base-two logarithm (zero at zero). -/
def natLog2 (n : Nat) : Nat := natLog2F n n

/-- Whether two to the power e is at most n over d (n, d positive),
decided by integer comparison. -/
def pow2LeQuot (e : Int) (n d : Nat) : Bool :=
  if 0 ≤ e then (2 ^ e.toNat) * d ≤ n else d ≤ n * (2 ^ (-e).toNat)

/-- Round the integer quotient a over b (b positive) to the nearest
integer, halves to the even neighbour (f is the floor, r2 twice the
remainder numerator). -/
def roundHalfEvenQuot (a b : Int) : Int :=
  let f := Int.fdiv a b
  let r2 := 2 * (a - f * b)
  if r2 < b then f
  else if b < r2 then f + 1
  else if f % 2 = 0 then f else f + 1

/-- The IEEE 754 binary64 value nearest to the positive rational n over
d, ties to even, as an exact rational: e is the floor exponent, u the
exponent of one unit in the last place (53-bit significands for normal
values, clamped at -1074 in the subnormal range, so gradual underflow to
zero is modelled exactly). Values beyond the overflow threshold, where
Python would produce infinity, are returned unrounded; they are
unreachable here, since the program only rounds fractions in [0, 1] and
percentages in [0, 100]. -/
def posRoundToDouble (n d : Nat) : ℚ :=
  let e0 : Int := (natLog2 n : Int) - (natLog2 d : Int)
  let e : Int := if pow2LeQuot e0 n d then e0 else e0 - 1
  let u : Int := if e - 52 < -1074 then -1074 else e - 52
  if 1023 < e then (n : ℚ) / (d : ℚ)
  else if u ≤ 0 then
    mkRat (roundHalfEvenQuot ((n : Int) * ((2 ^ (-u).toNat : Nat) : Int)) (d : Int))
      (2 ^ (-u).toNat)
  else
    mkRat (roundHalfEvenQuot (n : Int) ((d : Int) * ((2 ^ u.toNat : Nat) : Int)) *
      ((2 ^ u.toNat : Nat) : Int)) 1

/-- The correctly rounded binary64 double of an exact rational: the model
of every CPython float operation in this pipeline, each of which (int
true division, multiplication by the exact 100) produces the nearest
double of the exact result, ties to even. Checked against CPython output
on thousands of count and total pairs, including the boundary cases
where the double differs from the exact rational. -/
def roundToDouble (q : ℚ) : ℚ :=
  if q.num = 0 then 0
  else if q.num < 0 then -(posRoundToDouble q.num.natAbs q.den)
  else posRoundToDouble q.num.natAbs q.den

/-- ExtendedCounter.fraction: lowercase the item, divide its count by the
sum of all values (ZeroDivisionError on an empty total, as in Python).
The true division of the two Python ints yields the correctly rounded
double of the exact ratio. -/
def fraction (c : CounterL) (item : String) : Except PyError ℚ :=
  let it := pyLower item
  if sumValues c = 0 then .error .zeroDivisionError
  else .ok (roundToDouble ((getCount c it : ℚ) / (sumValues c : ℚ)))

/-- Round a rational to an integer, halves to the even neighbour,
written on the numerator and denominator so that it evaluates by kernel
reduction. This is the rounding CPython string formatting applies to
the exact value of the double being printed. -/
def roundHalfEven (q : ℚ) : ℤ :=
  let n := q.num
  let d := (q.den : Int)
  let f := Int.fdiv n d
  let r2 := 2 * (n - f * d)
  if r2 < d then f
  else if d < r2 then f + 1
  else if f % 2 = 0 then f else f + 1

/-- The format specifier .1f applied to the exact value of a double: one
digit after the decimal point, correctly rounded with ties to even, as
CPython formats floats. The argument is always the exact rational value
of a binary64 double produced by roundToDouble. -/
def fmt1 (q : ℚ) : String :=
  let n := roundHalfEven (10 * q)
  let m := n.natAbs
  let s := toString (m / 10) ++ "." ++ toString (m % 10)
  if n < 0 then "-" ++ s else s

/-- ExtendedCounter.percent_str: the fraction times one hundred (a float
multiplication, so the exact product is rounded to the nearest double
again), formatted with .1f and a trailing percent sign. -/
def percent_str (c : CounterL) (item : String) : Except PyError String := do
  let fr ← fraction c item
  .ok (fmt1 (roundToDouble (100 * fr)) ++ "%")

/-- Insert before the first element not smaller under le; the helper of
the stable insertion sort below. -/
def insertLe {α : Type} (le : α → α → Bool) (x : α) : List α → List α
  | [] => [x]
  | y :: ys => if le x y then x :: y :: ys else y :: insertLe le x ys

/-- Stable sort with respect to a total boolean preorder: elements are
inserted back to front, so ties keep their original relative order. Both
Python sorted and heapq.nlargest are stable, and a stable sort under a
total preorder is unique, so this computes exactly what they do. -/
def sortLe {α : Type} (le : α → α → Bool) : List α → List α
  | [] => []
  | x :: xs => insertLe le x (sortLe le xs)

/-- Counter.most_common(n): the n entries with the largest counts, via
heapq.nlargest, which is the stable descending sort by count (ties at the
cutoff therefore fall to insertion order) truncated to n. -/
def most_common (c : CounterL) (n : Nat) : CounterL :=
  (sortLe (fun a b => decide (b.2 ≤ a.2)) c).take n

/-- The sort key lambda x: (-x[1], x[0]) of gen_counter_text: count
descending, then the stored name ascending. -/
def leCountName (a b : String × Nat) : Bool :=
  decide (b.2 < a.2) || (decide (a.2 = b.2) && !(strLt b.1 a.1))

/-- gen_counter_text of src/h1b_counting.py: take most_common(n), re-sort
by count descending then stored name ascending, build the parallel lists
of upper-cased names, counts and percent strings (percent_str looks each
upper-cased name up in the counter again), and join each zipped row with
the delimiter plus a newline. The generator is modelled as the list of
the lines it yields; the first exception raised while building the
percentage list propagates. -/
def gen_counter_text (c : CounterL) (n : Nat) (d : String) :
    Except PyError (List String) := do
  let top_n := sortLe leCountName (most_common c n)
  let names := top_n.map (fun t => pyUpper t.1)
  let counts := top_n.map (fun t => toString t.2)
  let percentage ← mapExcept (percent_str c) names
  .ok ((names.zip (counts.zip percentage)).map
    (fun r => r.1 ++ d ++ r.2.1 ++ d ++ r.2.2 ++ "\n"))

/-- The ranking order the specification states for the report: count
descending, ties by ascending lexical order of the upper-cased name. -/
def leClaimKey (a b : String × Nat) : Bool :=
  decide (b.2 < a.2) ||
    (decide (a.2 = b.2) && !(strLt (pyUpper b.1) (pyUpper a.1)))

/-- The report body exactly as the specification sentence describes it
(written from the words of the spec, for comparison with the source
function gen_counter_text): the top n entries of the counter under the
claimed ranking order, each line NAME;COUNT;PERCENTAGE with the
percentage being one hundred times that entry own count over the total,
one decimal, trailing percent sign. -/
def report_spec_claim (c : CounterL) (n : Nat) (d : String) : List String :=
  ((sortLe leClaimKey c).take n).map (fun t =>
    pyUpper t.1 ++ d ++ toString t.2 ++ d ++
      fmt1 (roundToDouble (100 * roundToDouble ((t.2 : ℚ) / (sumValues c : ℚ)))) ++
      "%" ++ "\n")

/-- The report body gen_counter_text actually produces, written entry by
entry: the entries selected by most_common(n), ordered by count
descending then stored name ascending, each line carrying the upper-cased
name, the count, and one hundred times the entry own count over the
total, one decimal, trailing percent sign. The amended form of the claim
is the equality of gen_counter_text with this list. -/
def gen_counter_spec (c : CounterL) (n : Nat) (d : String) : List String :=
  (sortLe leCountName (most_common c n)).map (fun t =>
    pyUpper t.1 ++ d ++ toString t.2 ++ d ++
      fmt1 (roundToDouble (100 * roundToDouble ((t.2 : ℚ) / (sumValues c : ℚ)))) ++
      "%" ++ "\n")

/-! ### Shared helper lemmas -/

@[simp] theorem except_bind_ok {ε α β : Type} (a : α) (f : α → Except ε β) :
    (Except.ok a >>= f) = f a := rfl

@[simp] theorem except_bind_error {ε α β : Type} (e : ε) (f : α → Except ε β) :
    ((Except.error e : Except ε α) >>= f) = Except.error e := rfl

@[simp] theorem except_pure_eq {ε α : Type} (a : α) :
    (pure a : Except ε α) = Except.ok a := rfl

theorem alookup_dictUpdate_self {β : Type} (l : List (String × β)) (k : String)
    (v : β) : alookup (dictUpdate l k v) k = some v := by
  induction l with
  | nil => simp [dictUpdate, alookup]
  | cons p r ih =>
    obtain ⟨a, b⟩ := p
    by_cases h : a = k
    · simp [dictUpdate, h, alookup]
    · have h2 : ¬(k = a) := fun hh => h hh.symm
      simp [dictUpdate, h, alookup, h2, ih]

theorem alookup_dictUpdate_ne {β : Type} (l : List (String × β)) (k : String)
    (v : β) (b : String) (hne : b ≠ k) :
    alookup (dictUpdate l k v) b = alookup l b := by
  induction l with
  | nil => simp [dictUpdate, alookup, hne]
  | cons p r ih =>
    obtain ⟨a, c⟩ := p
    by_cases h : a = k
    · subst h
      simp [dictUpdate, alookup, hne]
    · simp [dictUpdate, h, alookup, ih]

theorem evalAll_ok_of_all (row : Record) (l : List Constraint)
    (h : ∀ con ∈ l, evalConstraint row con = .ok true) :
    evalAll row l = .ok (l.map (fun _ => true)) := by
  induction l with
  | nil => rfl
  | cons c cs ih =>
    have hc := h c (List.mem_cons_self c cs)
    have hcs := ih (fun con hcon => h con (List.mem_cons_of_mem c hcon))
    simp [evalAll, hc, hcs]

theorem evalAll_all_iff (row : Record) (l : List Constraint) (bs : List Bool)
    (h : evalAll row l = .ok bs) :
    (bs.all id = true ↔ ∀ con ∈ l, evalConstraint row con = .ok true) := by
  induction l generalizing bs with
  | nil =>
    simp [evalAll] at h
    subst h
    simp
  | cons c cs ih =>
    simp only [evalAll] at h
    cases hc : evalConstraint row c with
    | error e => simp [hc] at h
    | ok b =>
      cases hcs : evalAll row cs with
      | error e => simp [hc, hcs] at h
      | ok bs1 =>
        simp [hc, hcs] at h
        subst h
        have hiter := ih bs1 hcs
        constructor
        · intro hall
          simp [List.all_cons] at hall
          intro con hcon
          rcases List.mem_cons.mp hcon with heq | hmem
          · subst heq
            rw [hc, hall.1]
          · exact (hiter.mp (by simp [List.all_eq_true] at hall ⊢; exact hall.2)) con hmem
        · intro hall
          have hctrue := hall c (List.mem_cons_self c cs)
          rw [hc] at hctrue
          have hb : b = true := by injection hctrue
          have hrest := hiter.mpr (fun con hcon => hall con (List.mem_cons_of_mem c hcon))
          simp [List.all_cons, hb, hrest]

/-! ### C1: constraints_satisfied is the conjunction of the constraints,
and an empty constraint list admits every record -/

/-- C1: for every normalized record and constraint list,
constraints_satisfied returns True exactly when every constraint in the
list evaluates to True on that record (logical AND); in particular, for
the empty constraint list the quantifier is vacuous, so every record is
admitted. -/
theorem constraints_satisfied_iff_all (cons : List Constraint) (row : Record) :
    constraints_satisfied cons row = .ok true ↔
      ∀ con ∈ cons, evalConstraint row con = .ok true := by
  cases cons with
  | nil => simp [constraints_satisfied]
  | cons c cs =>
    simp only [constraints_satisfied, List.isEmpty_cons, if_neg Bool.false_ne_true]
    cases h : evalAll row (c :: cs) with
    | error e =>
      constructor
      · intro hh
        simp [h] at hh
      · intro hall
        rw [evalAll_ok_of_all row (c :: cs) hall] at h
        cases h
    | ok bs =>
      have hiff := evalAll_all_iff row (c :: cs) bs h
      simp only [except_bind_ok, Except.ok.injEq]
      exact hiff

/-! ### C2: coercion of the row entry against a numeric comparison value -/

/-- C2 (failing input): a constraint with the integer comparison value 5
and comparison operator greater-than, on a record whose entry is the
numeric string 7. The isinstance check of constraints_satisfied tests for
float only, so the entry is never coerced for an int comparison value and
the string-to-int ordered comparison raises TypeError, where the claim
(and the class docstring, whose example passes the int 20180601) expects
coercion and admission of the row. -/
theorem int_constraint_value_not_coerced :
    add_constraint [] "n" ">" (.int 5) = .ok [⟨"n", .gt, .int 5⟩] ∧
    constraints_satisfied [⟨"n", .gt, .int 5⟩] [("n", "7")] =
      .error .typeError :=
  ⟨rfl, rfl⟩

/-! ### C3: a schema mismatch aborts a file before any row is counted -/

theorem resolveAliases_fails (header : List String)
    (d : List (String × List String)) (acc : List (String × String))
    (h : ∃ p ∈ d, ∀ col ∈ header, col ∉ p.2) :
    resolveAliases header d acc = .error .schemaMismatch := by
  induction d generalizing acc with
  | nil =>
    obtain ⟨p, hp, _⟩ := h
    exact absurd hp (List.not_mem_nil p)
  | cons q rest ih =>
    obtain ⟨al, cands⟩ := q
    simp only [resolveAliases]
    cases hf : header.find? (fun c => cands.contains c) with
    | none => rfl
    | some col =>
      obtain ⟨p, hp, hnone⟩ := h
      rcases List.mem_cons.mp hp with heq | hmem
      · have hcontains := List.find?_some hf
        have hcolmem := List.mem_of_find?_eq_some hf
        subst heq
        exact absurd (List.elem_iff.mp hcontains) (hnone col hcolmem)
      · exact ih _ ⟨p, hmem, hnone⟩

/-- C3: when some required alias of the registry has no candidate column
in the header of a file, the run fails with the schema-mismatch error for
that file: processFile returns the counters untouched together with the
error (the failure happens while resolving the schema, before any row of
the file is read), and a whole count run reaching that file stops there
with the counters exactly as they were before the file, so no partial
counts from that file appear in the final counters. -/
theorem schema_mismatch_aborts_before_counting
    (reg : List (String × List String)) (cons : List Constraint)
    (cs : Counters) (f : CSVFile) (rest : List CSVFile) (fp : Nat)
    (h : ∃ p ∈ reg, ∀ col ∈ f.header, col ∉ p.2) :
    processFile ⟨some reg, cons⟩ cs f = (cs, some .schemaMismatch) ∧
    countFiles ⟨some reg, cons⟩ (f :: rest) cs fp =
      (cs, fp, some .schemaMismatch) := by
  have hne : reg.isEmpty = false := by
    obtain ⟨p, hp, _⟩ := h
    cases reg with
    | nil => exact absurd hp (List.not_mem_nil p)
    | cons q r => rfl
  have had : alias_dict (some reg) f.header = .error .schemaMismatch := by
    simp [alias_dict, hne, resolveAliases_fails f.header reg [] h]
  have hres : resolveFile ⟨some reg, cons⟩ f.header = .error .schemaMismatch := by
    simp [resolveFile, had]
  have hpf : processFile ⟨some reg, cons⟩ cs f = (cs, some .schemaMismatch) := by
    simp [processFile, hres]
  exact ⟨hpf, by simp [countFiles, hpf]⟩

/-- C3 witness: a registry requiring the alias status with candidates
STATUS and CASE_STATUS, and a file whose header FOO;BAR matches neither,
with a populated counter dictionary: the file aborts with the schema
mismatch and the counters are unchanged. -/
theorem schema_mismatch_aborts_before_counting_witness :
    processFile ⟨some [("status", ["STATUS", "CASE_STATUS"])], []⟩
        [("status", [("certified", 2)])] ⟨["FOO", "BAR"], [["1", "2"]]⟩ =
      ([("status", [("certified", 2)])], some .schemaMismatch) ∧
    countFiles ⟨some [("status", ["STATUS", "CASE_STATUS"])], []⟩
        [⟨["FOO", "BAR"], [["1", "2"]]⟩] [("status", [("certified", 2)])] 0 =
      ([("status", [("certified", 2)])], 0, some .schemaMismatch) :=
  schema_mismatch_aborts_before_counting
    [("status", ["STATUS", "CASE_STATUS"])] [] [("status", [("certified", 2)])]
    ⟨["FOO", "BAR"], [["1", "2"]]⟩ [] 0 (by decide)

/-! ### C8: resolution with an unset or empty registry -/

/-- C8 (failing input): with an unset registry (colname_list_dict None)
alias_dict raises AttributeError on every header, because the else branch
evaluates the aliases property, which calls the keys method of None; the
claim (and the constructor docstring, which presents the registry as
optional) expects the identity mapping treating aliases as literal header
names. -/
theorem alias_dict_none_attribute_error (header : List String) :
    alias_dict none header = .error .attributeError := rfl

/-! ### C9: rows whose column count differs from the header -/

/-- C9 (counterexample): a data row with one column against a two-column
header, with the single selected column present, is cleaned and yielded
as a normal record; no error of any kind is raised for the column-count
mismatch, contradicting the claim that such a row fails with a
MalformedRowError. -/
theorem short_row_accepted : cleanRow .strict ["a", "b"] ["a"] ["a"] ["x"] =
    .ok [("a", "x")] := rfl

theorem cleanRow_mapExcept_ok (header row : List String) (cols : List String)
    (hyp : ∀ col ∈ cols, ∃ i v, lastIdx? header col = some i ∧
      row[i]? = some v ∧ isAsciiStr v = true) :
    ∃ vals, mapExcept (fun col => do
        match (← dictGet header row col) with
        | none => Except.error PyError.attributeError
        | some s => preprocess_text Preproc.strict s) cols = Except.ok vals := by
  induction cols with
  | nil => exact ⟨[], rfl⟩
  | cons c cs ih =>
    obtain ⟨i, v, hidx, hget, hascii⟩ := hyp c (List.mem_cons_self c cs)
    obtain ⟨vals, hv⟩ := ih (fun col hcol => hyp col (List.mem_cons_of_mem c hcol))
    refine ⟨pyLower (pyStrip v) :: vals, ?_⟩
    have hhead : (do
        match (← dictGet header row c) with
        | none => Except.error PyError.attributeError
        | some s => preprocess_text Preproc.strict s) =
          Except.ok (pyLower (pyStrip v)) := by
      simp [dictGet, hidx, hget, preprocess_text, hascii]
    simp only [mapExcept]
    rw [hhead, except_bind_ok, hv, except_bind_ok]

/-- C9 (amended): CleanReader performs no column-count validation. First
part: whenever every selected column has a position in the header whose
entry is present in the row (and is ASCII, so strict preprocessing
succeeds), the row is cleaned and yielded as a normal record, whatever
its length compared to the header. Second part: when a selected column
position falls beyond a short row, the DictReader None fill value reaches
preprocess_text and the failure is an AttributeError (None has no encode
method), not a dedicated malformed-row error. -/
theorem clean_reader_no_length_check :
    (∀ (header cols aliases row : List String),
      (∀ col ∈ cols, ∃ i v, lastIdx? header col = some i ∧
        row[i]? = some v ∧ isAsciiStr v = true) →
      ∃ rec, cleanRow .strict header cols aliases row = .ok rec) ∧
    (∀ (header aliases row : List String) (col : String) (i : Nat),
      lastIdx? header col = some i → row.length ≤ i →
      cleanRow .strict header [col] aliases row = .error .attributeError) := by
  constructor
  · intro header cols aliases row hyp
    obtain ⟨vals, hv⟩ := cleanRow_mapExcept_ok header row cols hyp
    exact ⟨aliases.zip vals, by simp [cleanRow, hv]⟩
  · intro header aliases row col i hidx hle
    simp [cleanRow, mapExcept, dictGet, hidx, List.getElem?_eq_none hle]

/-- C9 witness: the short row x against header a;b succeeds when column a
is selected (first part at a concrete input) and raises AttributeError
when column b is selected (second part). -/
theorem clean_reader_no_length_check_witness :
    (∃ rec, cleanRow .strict ["a", "b"] ["a"] ["a"] ["x"] = .ok rec) ∧
    cleanRow .strict ["a", "b"] ["b"] ["b"] ["x"] = .error .attributeError := by
  constructor
  · exact clean_reader_no_length_check.1 ["a", "b"] ["a"] ["a"] ["x"]
      (by
        intro col hcol
        simp at hcol
        subst hcol
        exact ⟨0, "x", rfl, rfl, rfl⟩)
  · exact clean_reader_no_length_check.2 ["a", "b"] ["b"] ["x"] "b" 1 rfl
      (by decide)

/-! ### C10: add_counter always registers a fresh empty counter -/

/-- C10: for every counters dictionary and alias, add_counter leaves the
empty counter registered at that alias (replacing and discarding whatever
counter, however populated, was there) and leaves every other alias
untouched. -/
theorem add_counter_fresh_empty (cs : Counters) (a : String) :
    alookup (add_counter cs a) a = some [] ∧
    ∀ b, b ≠ a → alookup (add_counter cs a) b = alookup cs b := by
  refine ⟨?_, ?_⟩
  · simpa [add_counter] using alookup_dictUpdate_self cs a []
  · intro b hb
    simpa [add_counter] using alookup_dictUpdate_ne cs a [] b hb

/-- C10 witness: adding a counter at an alias already holding accumulated
counts resets that alias to the empty counter and keeps the sibling
counter intact. -/
theorem add_counter_fresh_empty_witness :
    alookup (add_counter [("x", [("v", 3)]), ("y", [("w", 2)])] "x") "x" =
      some [] ∧
    alookup (add_counter [("x", [("v", 3)]), ("y", [("w", 2)])] "x") "y" =
      some [("w", 2)] := by
  refine ⟨(add_counter_fresh_empty [("x", [("v", 3)]), ("y", [("w", 2)])] "x").1, ?_⟩
  have h := (add_counter_fresh_empty [("x", [("v", 3)]), ("y", [("w", 2)])] "x").2
    "y" (by decide)
  rw [h]
  decide

/-! ### C4: partition invariance of the aggregate counts -/

theorem processRows_append (cons : List Constraint)
    (header cols raliases : List String) (r1 r2 : List (List String))
    (cs : Counters) :
    processRows cons header cols raliases (r1 ++ r2) cs =
      match processRows cons header cols raliases r1 cs with
      | (cs1, none) => processRows cons header cols raliases r2 cs1
      | (cs1, some e) => (cs1, some e) := by
  induction r1 generalizing cs with
  | nil => simp [processRows]
  | cons row rest ih =>
    cases hclean : cleanRow Preproc.strict header cols raliases row with
    | error e => simp [processRows, hclean]
    | ok rec =>
      cases hsat : constraints_satisfied cons rec with
      | error e => simp [processRows, hclean, hsat]
      | ok b =>
        cases b with
        | false => simpa [processRows, hclean, hsat] using ih cs
        | true =>
          cases hupd : updateCounters rec cs with
          | mk cs1 err =>
            cases err with
            | some e => simp [processRows, hclean, hsat, hupd]
            | none => simpa [processRows, hclean, hsat, hupd] using ih cs1

/-- C4: splitting the data rows of a file into two files carrying the
same header leaves the final counters of a whole count run unchanged;
the per-file schema resolution depends only on the (shared) header, and
the row loop over the concatenation is the composition of the row loops
over the parts. -/
theorem count_partition_invariance (cfg : MFCConfig) (hdr : List String)
    (r1 r2 : List (List String)) (cs : Counters) (fp : Nat) :
    (countFiles cfg [⟨hdr, r1 ++ r2⟩] cs fp).1 =
      (countFiles cfg [⟨hdr, r1⟩, ⟨hdr, r2⟩] cs fp).1 := by
  cases hres : resolveFile cfg hdr with
  | error e => simp [countFiles, processFile, hres]
  | ok p =>
    obtain ⟨colnames, raliases⟩ := p
    simp only [countFiles, processFile, hres]
    rw [processRows_append]
    cases hp1 : processRows cfg.constraints hdr colnames raliases r1 cs with
    | mk cs1 err =>
      cases err with
      | some e => simp
      | none =>
        cases hp2 : processRows cfg.constraints hdr colnames raliases r2 cs1 with
        | mk cs2 err2 =>
          cases err2 with
          | some e => simp [hp2]
          | none => simp [hp2]

/-! ### C5: running count twice doubles every counter value -/

/-- The alias keys of a counters dictionary, in order. -/
def keysOf (cs : Counters) : List String := cs.map Prod.fst

/-- Observed count of value v in the counter at alias a (zero when the
alias or the value is absent). -/
def valAt (cs : Counters) (a v : String) : Nat :=
  getCount ((alookup cs a).getD []) v

theorem alookup_mem {β : Type} (l : List (String × β)) (a : String) (b : β)
    (h : alookup l a = some b) : (a, b) ∈ l := by
  induction l with
  | nil => cases h
  | cons p r ih =>
    obtain ⟨k, w⟩ := p
    by_cases hk : a = k
    · subst hk
      simp [alookup] at h
      subst h
      exact List.mem_cons_self _ _
    · simp [alookup, hk] at h
      exact List.mem_cons_of_mem _ (ih h)

theorem valAt_cons (a0 a v : String) (cnt : CounterL) (r : Counters) :
    valAt ((a, cnt) :: r) a0 v =
      if a0 = a then getCount cnt v else valAt r a0 v := by
  by_cases h : a0 = a <;> simp [valAt, alookup, h]

theorem bump_getCount (cnt : CounterL) (k v : String) :
    getCount (bump cnt k) v = getCount cnt v + (if v = k then 1 else 0) := by
  induction cnt with
  | nil => by_cases h : v = k <;> simp [bump, getCount, h]
  | cons p r ih =>
    obtain ⟨a, n⟩ := p
    by_cases hk : k = a
    · subst hk
      by_cases hv : v = k <;> simp [bump, getCount, hv]
    · by_cases hv : v = a
      · subst hv
        have : ¬(v = k) := fun hh => hk hh.symm
        simp [bump, getCount, hk, this]
      · simp [bump, getCount, hk, hv, ih]

theorem keys_updateCounters (rec : Record) (cs : Counters) :
    keysOf (updateCounters rec cs).1 = keysOf cs := by
  induction cs with
  | nil => rfl
  | cons p r ih =>
    obtain ⟨a, cnt⟩ := p
    cases hga : getattr_ rec a with
    | error e => simp [updateCounters, hga]
    | ok v =>
      cases hu : updateCounters rec r with
      | mk rest1 err =>
        rw [hu] at ih
        simp [updateCounters, hga, hu, keysOf] at ih ⊢
        exact ih

theorem sim_update (rec : Record) (cs : Counters) :
    ∀ (cs' : Counters), keysOf cs = keysOf cs' →
    (updateCounters rec cs).2 = (updateCounters rec cs').2 ∧
    ∀ a v, valAt (updateCounters rec cs).1 a v + valAt cs' a v =
           valAt (updateCounters rec cs').1 a v + valAt cs a v := by
  induction cs with
  | nil =>
    intro cs' hk
    cases cs' with
    | nil => exact ⟨rfl, fun a v => Nat.add_comm _ _⟩
    | cons p r => simp [keysOf] at hk
  | cons p r ih =>
    intro cs' hk
    obtain ⟨a, cnt⟩ := p
    cases cs' with
    | nil => simp [keysOf] at hk
    | cons q r' =>
      obtain ⟨a', cnt'⟩ := q
      simp [keysOf] at hk
      obtain ⟨ha, hr⟩ := hk
      subst ha
      cases hga : getattr_ rec a with
      | error e =>
        refine ⟨by simp [updateCounters, hga], fun a0 v => ?_⟩
        simp only [updateCounters, hga]
        exact Nat.add_comm _ _
      | ok v0 =>
        obtain ⟨herr, hval⟩ := ih r' (by simpa [keysOf] using hr)
        cases hu : updateCounters rec r with
        | mk rest1 err =>
          cases hu' : updateCounters rec r' with
          | mk rest1' err' =>
            rw [hu, hu'] at herr hval
            constructor
            · simp [updateCounters, hga, hu, hu']
              exact herr
            · intro a0 v
              simp only [updateCounters, hga, hu, hu']
              by_cases ha0 : a0 = a
              · subst ha0
                simp [valAt_cons, bump_getCount]
                omega
              · simp [valAt_cons, ha0]
                exact hval a0 v

theorem keys_processRows (cons : List Constraint)
    (header cols raliases : List String) (rows : List (List String)) :
    ∀ cs, keysOf (processRows cons header cols raliases rows cs).1 = keysOf cs := by
  induction rows with
  | nil => intro cs; rfl
  | cons row rest ih =>
    intro cs
    cases hclean : cleanRow Preproc.strict header cols raliases row with
    | error e => simp [processRows, hclean]
    | ok rec =>
      cases hsat : constraints_satisfied cons rec with
      | error e => simp [processRows, hclean, hsat]
      | ok b =>
        cases b with
        | false => simpa [processRows, hclean, hsat] using ih cs
        | true =>
          cases hupd : updateCounters rec cs with
          | mk cs1 err =>
            have hk1 : keysOf cs1 = keysOf cs := by
              have := keys_updateCounters rec cs
              rw [hupd] at this
              exact this
            cases err with
            | some e => simpa [processRows, hclean, hsat, hupd] using hk1
            | none =>
              have := ih cs1
              simp [processRows, hclean, hsat, hupd, this, hk1]

theorem sim_rows (cons : List Constraint)
    (header cols raliases : List String) (rows : List (List String)) :
    ∀ (cs cs' : Counters), keysOf cs = keysOf cs' →
    (processRows cons header cols raliases rows cs).2 =
      (processRows cons header cols raliases rows cs').2 ∧
    ∀ a v, valAt (processRows cons header cols raliases rows cs).1 a v +
        valAt cs' a v =
      valAt (processRows cons header cols raliases rows cs').1 a v +
        valAt cs a v := by
  induction rows with
  | nil => exact fun cs cs' hk => ⟨rfl, fun a v => Nat.add_comm _ _⟩
  | cons row rest ih =>
    intro cs cs' hk
    cases hclean : cleanRow Preproc.strict header cols raliases row with
    | error e =>
      exact ⟨by simp [processRows, hclean], fun a v => by
        simp [processRows, hclean]; exact Nat.add_comm _ _⟩
    | ok rec =>
      cases hsat : constraints_satisfied cons rec with
      | error e =>
        exact ⟨by simp [processRows, hclean, hsat], fun a v => by
          simp [processRows, hclean, hsat]; exact Nat.add_comm _ _⟩
      | ok b =>
        cases b with
        | false =>
          obtain ⟨h1, h2⟩ := ih cs cs' hk
          exact ⟨by simpa [processRows, hclean, hsat] using h1,
            fun a v => by simpa [processRows, hclean, hsat] using h2 a v⟩
        | true =>
          obtain ⟨huerr, huval⟩ := sim_update rec cs cs' hk
          cases hu : updateCounters rec cs with
          | mk u err =>
            cases hu' : updateCounters rec cs' with
            | mk u' err' =>
              rw [hu, hu'] at huerr huval
              have herr2 : err = err' := huerr
              have huval2 : ∀ a v, valAt u a v + valAt cs' a v =
                  valAt u' a v + valAt cs a v := huval
              subst herr2
              have hku : keysOf u = keysOf cs := by
                have := keys_updateCounters rec cs
                rw [hu] at this
                exact this
              have hku' : keysOf u' = keysOf cs' := by
                have := keys_updateCounters rec cs'
                rw [hu'] at this
                exact this
              cases err with
              | some e =>
                have hP : processRows cons header cols raliases (row :: rest) cs =
                    (u, some e) := by
                  simp [processRows, hclean, hsat, hu]
                have hP' : processRows cons header cols raliases (row :: rest) cs' =
                    (u', some e) := by
                  simp [processRows, hclean, hsat, hu']
                rw [hP, hP']
                exact ⟨rfl, fun a v => huval2 a v⟩
              | none =>
                obtain ⟨h1, h2⟩ := ih u u' (by rw [hku, hku', hk])
                have hP : processRows cons header cols raliases (row :: rest) cs =
                    processRows cons header cols raliases rest u := by
                  simp [processRows, hclean, hsat, hu]
                have hP' : processRows cons header cols raliases (row :: rest) cs' =
                    processRows cons header cols raliases rest u' := by
                  simp [processRows, hclean, hsat, hu']
                rw [hP, hP']
                refine ⟨h1, fun a v => ?_⟩
                have hx := h2 a v
                have hy := huval2 a v
                omega

theorem keys_processFile (cfg : MFCConfig) (cs : Counters) (f : CSVFile) :
    keysOf (processFile cfg cs f).1 = keysOf cs := by
  cases hres : resolveFile cfg f.header with
  | error e => simp [processFile, hres]
  | ok p =>
    obtain ⟨cn, ra⟩ := p
    simpa [processFile, hres] using
      keys_processRows cfg.constraints f.header cn ra f.rows cs

theorem sim_file (cfg : MFCConfig) (f : CSVFile) (cs cs' : Counters)
    (hk : keysOf cs = keysOf cs') :
    (processFile cfg cs f).2 = (processFile cfg cs' f).2 ∧
    ∀ a v, valAt (processFile cfg cs f).1 a v + valAt cs' a v =
           valAt (processFile cfg cs' f).1 a v + valAt cs a v := by
  cases hres : resolveFile cfg f.header with
  | error e =>
    refine ⟨by simp [processFile, hres], fun a v => ?_⟩
    simp only [processFile, hres]
    exact Nat.add_comm _ _
  | ok p =>
    obtain ⟨cn, ra⟩ := p
    have h := sim_rows cfg.constraints f.header cn ra f.rows cs cs' hk
    refine ⟨?_, fun a v => ?_⟩
    · simpa [processFile, hres] using h.1
    · simpa [processFile, hres] using h.2 a v

theorem keys_countFiles (cfg : MFCConfig) (files : List CSVFile) :
    ∀ (cs : Counters) (fp : Nat),
      keysOf (countFiles cfg files cs fp).1 = keysOf cs := by
  induction files with
  | nil => intro cs fp; rfl
  | cons f rest ih =>
    intro cs fp
    cases hpf : processFile cfg cs f with
    | mk cs1 err =>
      have hk1 : keysOf cs1 = keysOf cs := by
        have := keys_processFile cfg cs f
        rw [hpf] at this
        exact this
      cases err with
      | some e => simpa [countFiles, hpf] using hk1
      | none =>
        have := (ih cs1 (fp + 1)).trans hk1
        simpa [countFiles, hpf] using this

theorem sim_countFiles (cfg : MFCConfig) (files : List CSVFile) :
    ∀ (cs cs' : Counters) (fp fp' : Nat), keysOf cs = keysOf cs' →
    (countFiles cfg files cs fp).2.2 = (countFiles cfg files cs' fp').2.2 ∧
    ∀ a v, valAt (countFiles cfg files cs fp).1 a v + valAt cs' a v =
           valAt (countFiles cfg files cs' fp').1 a v + valAt cs a v := by
  induction files with
  | nil => exact fun cs cs' fp fp' hk => ⟨rfl, fun a v => Nat.add_comm _ _⟩
  | cons f rest ih =>
    intro cs cs' fp fp' hk
    obtain ⟨herr, hval⟩ := sim_file cfg f cs cs' hk
    cases hpf : processFile cfg cs f with
    | mk u err =>
      cases hpf' : processFile cfg cs' f with
      | mk u' err' =>
        rw [hpf, hpf'] at herr hval
        have herr2 : err = err' := herr
        have hval2 : ∀ a v, valAt u a v + valAt cs' a v =
            valAt u' a v + valAt cs a v := hval
        subst herr2
        have hku : keysOf u = keysOf cs := by
          have := keys_processFile cfg cs f
          rw [hpf] at this
          exact this
        have hku' : keysOf u' = keysOf cs' := by
          have := keys_processFile cfg cs' f
          rw [hpf'] at this
          exact this
        cases err with
        | some e =>
          have hC : countFiles cfg (f :: rest) cs fp = (u, fp, some e) := by
            simp [countFiles, hpf]
          have hC' : countFiles cfg (f :: rest) cs' fp' = (u', fp', some e) := by
            simp [countFiles, hpf']
          rw [hC, hC']
          exact ⟨rfl, fun a v => hval2 a v⟩
        | none =>
          obtain ⟨h1, h2⟩ := ih u u' (fp + 1) (fp' + 1) (by rw [hku, hku', hk])
          have hC : countFiles cfg (f :: rest) cs fp =
              countFiles cfg rest u (fp + 1) := by
            simp [countFiles, hpf]
          have hC' : countFiles cfg (f :: rest) cs' fp' =
              countFiles cfg rest u' (fp' + 1) := by
            simp [countFiles, hpf']
          rw [hC, hC']
          refine ⟨h1, fun a v => ?_⟩
          have hx := h2 a v
          have hy := hval2 a v
          omega

theorem valAt_of_empty (cs : Counters)
    (h : ∀ p ∈ cs, p.2 = ([] : CounterL)) (a v : String) : valAt cs a v = 0 := by
  unfold valAt
  cases hla : alookup cs a with
  | none => rfl
  | some cnt =>
    have hc : cnt = [] := h (a, cnt) (alookup_mem cs a cnt hla)
    subst hc
    rfl

/-- C5: starting from freshly added (empty) counters, if a count run over
the files succeeds, running count again on the same instance is not
rejected (the second run also finishes without error) and afterwards
every value of every tracked counter is exactly twice its value after the
first run. The second run starts from the populated counters and the
already-advanced files_parsed, exactly as the mutable instance would. -/
theorem count_twice_doubles (cfg : MFCConfig) (files : List CSVFile)
    (cs0 cs1 : Counters) (k : Nat)
    (hzero : ∀ p ∈ cs0, p.2 = ([] : CounterL))
    (hrun : countFiles cfg files cs0 0 = (cs1, k, none)) :
    (countFiles cfg files cs1 k).2.2 = none ∧
    ∀ a v, valAt (countFiles cfg files cs1 k).1 a v = 2 * valAt cs1 a v := by
  have hkeys : keysOf cs1 = keysOf cs0 := by
    have := keys_countFiles cfg files cs0 0
    rw [hrun] at this
    exact this
  obtain ⟨herr, hval⟩ := sim_countFiles cfg files cs1 cs0 k 0 hkeys
  rw [hrun] at herr hval
  refine ⟨herr, fun a v => ?_⟩
  have hx : valAt (countFiles cfg files cs1 k).1 a v + valAt cs0 a v =
      valAt cs1 a v + valAt cs1 a v := hval a v
  have h0 : valAt cs0 a v = 0 := valAt_of_empty cs0 hzero a v
  omega

/-- C5 witness: one file with three rows under a one-alias registry; the
first run yields counts x two, y one; the second run doubles the count of
x to four. -/
theorem count_twice_doubles_witness :
    (countFiles ⟨some [("s", ["S"])], []⟩ [⟨["S"], [["x"], ["x"], ["y"]]⟩]
        [("s", [("x", 2), ("y", 1)])] 1).2.2 = none ∧
    valAt (countFiles ⟨some [("s", ["S"])], []⟩ [⟨["S"], [["x"], ["x"], ["y"]]⟩]
        [("s", [("x", 2), ("y", 1)])] 1).1 "s" "x" =
      2 * valAt [("s", [("x", 2), ("y", 1)])] "s" "x" := by
  have h := count_twice_doubles ⟨some [("s", ["S"])], []⟩
    [⟨["S"], [["x"], ["x"], ["y"]]⟩] [("s", [])] [("s", [("x", 2), ("y", 1)])] 1
    (by decide) (by rfl)
  exact ⟨h.1, h.2 "s" "x"⟩

/-! ### C7: schema resolution selects the first matching header column -/

/-- C7 (counterexample): two aliases whose candidate lists share the only
header column. Resolution succeeds and the first matching header column
of alias a1 is C, yet the produced header-to-alias dictionary associates
C with a2 only: the later alias overwrote the earlier one, so the claim
that every required alias is mapped to its first matching header name
fails for a1. -/
theorem alias_collision_drops_earlier_alias :
    alias_dict (some [("a1", ["C"]), ("a2", ["C"])]) ["C"] = .ok [("C", "a2")] ∧
    ["C"].find? (fun c => (["C"] : List String).contains c) = some "C" ∧
    ("C", "a1") ∉ ([("C", "a2")] : List (String × String)) :=
  ⟨rfl, rfl, by decide⟩

theorem mem_dictUpdate_self {β : Type} (l : List (String × β)) (k : String)
    (v : β) : (k, v) ∈ dictUpdate l k v := by
  induction l with
  | nil => simp [dictUpdate]
  | cons p r ih =>
    obtain ⟨a, b⟩ := p
    by_cases h : a = k
    · subst h
      simp [dictUpdate]
    · simp only [dictUpdate, if_neg h]
      exact List.mem_cons_of_mem _ ih

theorem mem_dictUpdate_of_ne {β : Type} (l : List (String × β)) (k : String)
    (v : β) (x : String × β) (hx : x ∈ l) (hne : x.1 ≠ k) :
    x ∈ dictUpdate l k v := by
  induction l with
  | nil => cases hx
  | cons p r ih =>
    obtain ⟨a, b⟩ := p
    rcases List.mem_cons.mp hx with heq | hmem
    · by_cases h : a = k
      · exact absurd (by rw [heq]; exact h) hne
      · simp only [dictUpdate, if_neg h]
        rw [heq]
        exact List.mem_cons_self _ _
    · by_cases h : a = k
      · subst h
        simp only [dictUpdate, if_pos rfl]
        exact List.mem_cons_of_mem _ hmem
      · simp only [dictUpdate, if_neg h]
        exact List.mem_cons_of_mem _ (ih hmem)

theorem resolveAliases_preserves (header : List String) :
    ∀ (d : List (String × List String)) (acc ad : List (String × String))
      (x : String × String),
      resolveAliases header d acc = .ok ad → x ∈ acc →
      (∀ q ∈ d, header.find? (fun c => q.2.contains c) ≠ some x.1) →
      x ∈ ad := by
  intro d
  induction d with
  | nil =>
    intro acc ad x hres hx _
    simp only [resolveAliases] at hres
    injection hres with h
    subst h
    exact hx
  | cons q rest ih =>
    intro acc ad x hres hx hne
    obtain ⟨al, cands⟩ := q
    simp only [resolveAliases] at hres
    cases hf : header.find? (fun c => cands.contains c) with
    | none => rw [hf] at hres; cases hres
    | some col =>
      rw [hf] at hres
      have hcol : col ≠ x.1 := by
        intro hcc
        exact hne (al, cands) (List.mem_cons_self _ _) (by rw [hf, hcc])
      exact ih (dictUpdate acc col al) ad x hres
        (mem_dictUpdate_of_ne acc col al x hx (fun hh => hcol hh.symm))
        (fun q2 hq2 => hne q2 (List.mem_cons_of_mem _ hq2))

theorem resolveAliases_first_match (header : List String) :
    ∀ (d : List (String × List String)) (acc ad : List (String × String)),
      resolveAliases header d acc = .ok ad →
      (d.map (fun p => header.find? (fun c => p.2.contains c))).Nodup →
      ∀ p ∈ d, ∃ col, header.find? (fun c => p.2.contains c) = some col ∧
        (col, p.1) ∈ ad := by
  intro d
  induction d with
  | nil => intro acc ad _ _ p hp; cases hp
  | cons q rest ih =>
    intro acc ad hres hnd p hp
    obtain ⟨al, cands⟩ := q
    simp only [resolveAliases] at hres
    cases hf : header.find? (fun c => cands.contains c) with
    | none => rw [hf] at hres; cases hres
    | some col =>
      rw [hf] at hres
      simp only [List.map_cons] at hnd
      rw [List.nodup_cons, hf] at hnd
      obtain ⟨hnotmem, hnd2⟩ := hnd
      rcases List.mem_cons.mp hp with heq | hmem
      · subst heq
        refine ⟨col, hf, ?_⟩
        refine resolveAliases_preserves header rest (dictUpdate acc col al) ad
          (col, al) hres (mem_dictUpdate_self acc col al) ?_
        intro q2 hq2 heq2
        exact hnotmem (heq2 ▸ List.mem_map_of_mem
          (fun p => header.find? (fun c => p.2.contains c)) hq2)
      · exact ih (dictUpdate acc col al) ad hres hnd2 p hmem

/-- C7 (amended): for a nonempty registry whose aliases select pairwise
distinct first-match columns, schema resolution associates every required
alias with the first header column (in file order) occurring in that
alias candidate list; and resolution is a pure function of the header and
registry, so repeated calls coincide. The distinctness proviso is what
the counterexample forces: when two aliases share their first-match
column, the later alias silently overwrites the earlier one in the
header-to-alias dictionary. -/
theorem alias_dict_first_match (d : List (String × List String))
    (header : List String) (ad : List (String × String))
    (hok : alias_dict (some d) header = .ok ad)
    (hinj : (d.map (fun p => header.find? (fun c => p.2.contains c))).Nodup) :
    (∀ p ∈ d, ∃ col, header.find? (fun c => p.2.contains c) = some col ∧
      (col, p.1) ∈ ad) ∧
    alias_dict (some d) header = alias_dict (some d) header := by
  refine ⟨?_, rfl⟩
  cases hd : d.isEmpty with
  | true =>
    intro p hp
    rw [List.isEmpty_iff] at hd
    subst hd
    cases hp
  | false =>
    simp only [alias_dict, hd, if_neg Bool.false_ne_true] at hok
    exact resolveAliases_first_match header d [] ad hok hinj

/-- C7 witness: the registry of the main program against a header using
the second candidate of status: status resolves to CASE_STATUS, state to
WORKSITE_STATE, both present in the produced dictionary. -/
theorem alias_dict_first_match_witness :
    (∀ p ∈ ([("status", ["STATUS", "CASE_STATUS"]),
        ("state", ["WORKSITE_STATE"])] : List (String × List String)),
      ∃ col, (["CASE_STATUS", "WORKSITE_STATE", "X"] : List String).find?
          (fun c => p.2.contains c) = some col ∧
        (col, p.1) ∈ ([("CASE_STATUS", "status"), ("WORKSITE_STATE", "state")] :
          List (String × String))) ∧
    alias_dict (some [("status", ["STATUS", "CASE_STATUS"]),
        ("state", ["WORKSITE_STATE"])]) ["CASE_STATUS", "WORKSITE_STATE", "X"] =
      alias_dict (some [("status", ["STATUS", "CASE_STATUS"]),
        ("state", ["WORKSITE_STATE"])]) ["CASE_STATUS", "WORKSITE_STATE", "X"] :=
  alias_dict_first_match
    [("status", ["STATUS", "CASE_STATUS"]), ("state", ["WORKSITE_STATE"])]
    ["CASE_STATUS", "WORKSITE_STATE", "X"]
    [("CASE_STATUS", "status"), ("WORKSITE_STATE", "state")]
    (by rfl) (by decide)

/-! ### C6: the report body of gen_counter_text -/

/-- C6 (counterexample): the counter holding b and a, both with count
one, asking for the top one entry. Counter.most_common(1) selects b (the
tie at the cutoff falls to insertion order, not to name order), so
gen_counter_text emits B;1;50.0% while the claimed ranking (count
descending, upper-cased name ascending) selects a and emits A;1;50.0%. -/
theorem gen_counter_text_tie_selection : gen_counter_text [("b", 1), ("a", 1)] 1 ";" ≠
    Except.ok (report_spec_claim [("b", 1), ("a", 1)] 1 ";") := by
  intro h
  have h1 : gen_counter_text [("b", 1), ("a", 1)] 1 ";" =
      Except.ok ["B;1;50.0%\n"] := rfl
  have h2 : report_spec_claim [("b", 1), ("a", 1)] 1 ";" = ["A;1;50.0%\n"] := rfl
  rw [h1, h2] at h
  injection h with h3
  exact absurd h3 (by decide)

theorem mem_insertLe {α : Type} (le : α → α → Bool) (x y : α) :
    ∀ (l : List α), y ∈ insertLe le x l ↔ y = x ∨ y ∈ l := by
  intro l
  induction l with
  | nil => simp [insertLe]
  | cons z zs ih =>
    by_cases h : le x z
    · simp [insertLe, h, List.mem_cons]
    · simp only [insertLe, h, Bool.false_eq_true, if_false, List.mem_cons, ih]
      tauto

theorem mem_sortLe {α : Type} (le : α → α → Bool) (y : α) :
    ∀ (l : List α), y ∈ sortLe le l ↔ y ∈ l := by
  intro l
  induction l with
  | nil => simp [sortLe]
  | cons x xs ih => simp [sortLe, mem_insertLe, ih, List.mem_cons]

theorem getCount_eq_of_mem (c : CounterL) (p : String × Nat)
    (hnd : (c.map Prod.fst).Nodup) (hp : p ∈ c) : getCount c p.1 = p.2 := by
  induction c with
  | nil => cases hp
  | cons q r ih =>
    obtain ⟨a, n⟩ := q
    simp only [List.map_cons, List.nodup_cons] at hnd
    obtain ⟨hqnot, hnd2⟩ := hnd
    rcases List.mem_cons.mp hp with heq | hmem
    · rw [heq]
      simp [getCount]
    · have hne : p.1 ≠ a := by
        intro hh
        exact hqnot (hh ▸ List.mem_map_of_mem Prod.fst hmem)
      simp only [getCount, if_neg hne]
      exact ih hnd2 hmem

theorem snd_le_sumValues (c : CounterL) (p : String × Nat) (hp : p ∈ c) :
    p.2 ≤ sumValues c := by
  induction c with
  | nil => cases hp
  | cons q r ih =>
    rcases List.mem_cons.mp hp with heq | hmem
    · rw [heq]
      simp [sumValues]
    · have := ih hmem
      simp only [sumValues, List.map_cons, List.sum_cons] at this ⊢
      omega

theorem mapExcept_map_ok {α β γ : Type} (f : β → Except PyError γ)
    (u : α → β) (w : α → γ) :
    ∀ (L : List α), (∀ x ∈ L, f (u x) = .ok (w x)) →
      mapExcept f (L.map u) = .ok (L.map w) := by
  intro L
  induction L with
  | nil => intro _; rfl
  | cons x xs ih =>
    intro h
    have hx := h x (List.mem_cons_self x xs)
    have hxs := ih (fun y hy => h y (List.mem_cons_of_mem x hy))
    simp [mapExcept, hx, hxs]

theorem zip3_map {α : Type} (fn fc fp : α → String) (d : String) :
    ∀ (L : List α),
      (((L.map fn).zip ((L.map fc).zip (L.map fp))).map
        (fun r => r.1 ++ d ++ r.2.1 ++ d ++ r.2.2 ++ "\n")) =
      L.map (fun x => fn x ++ d ++ fc x ++ d ++ fp x ++ "\n") := by
  intro L
  induction L with
  | nil => rfl
  | cons x xs ih => simp [ih]

set_option maxHeartbeats 1000000 in
/-- C6 (amended): for a counter with pairwise distinct keys that are
stable under upper-then-lower casing (as every key the program stores is,
being preprocessed lower-case ASCII) and positive counts, the report body
of gen_counter_text consists of NAME;COUNT;PERCENTAGE lines for exactly
the entries chosen by most_common(n) (the n largest counts, ties at the
cutoff falling to the counter insertion order), ordered by count
descending with ties broken by ascending order of the stored (lower-case)
name; NAME is the upper-cased value, COUNT the occurrence count, and
PERCENTAGE the float one hundred times the double of that entry own
count over the sum of all counter values (both float operations rounded
to the nearest binary64 double, ties to even, exactly as CPython
computes them), formatted to one decimal with a trailing percent
sign. -/
theorem gen_counter_text_amended (c : CounterL) (n : Nat) (d : String)
    (hnd : (c.map Prod.fst).Nodup)
    (hlc : ∀ p ∈ c, pyLower (pyUpper p.1) = p.1)
    (hpos : ∀ p ∈ c, 0 < p.2) :
    gen_counter_text c n d = .ok (gen_counter_spec c n d) := by
  have hsub : ∀ p ∈ sortLe leCountName (most_common c n), p ∈ c := by
    intro p hp
    rw [mem_sortLe] at hp
    simp only [most_common] at hp
    have h2 := List.take_subset _ _ hp
    rwa [mem_sortLe] at h2
  have hpct : ∀ p ∈ sortLe leCountName (most_common c n),
      percent_str c (pyUpper p.1) =
        .ok (fmt1 (roundToDouble (100 *
          roundToDouble ((p.2 : ℚ) / (sumValues c : ℚ)))) ++ "%") := by
    intro p hp
    have hpc := hsub p hp
    have hS : sumValues c ≠ 0 := by
      have h1 := hpos p hpc
      have h2 := snd_le_sumValues c p hpc
      omega
    have hget : getCount c (pyLower (pyUpper p.1)) = p.2 := by
      rw [hlc p hpc]
      exact getCount_eq_of_mem c p hnd hpc
    simp [percent_str, fraction, hS, hget]
  simp only [gen_counter_text, gen_counter_spec]
  rw [mapExcept_map_ok (percent_str c) (fun t => pyUpper t.1)
    (fun t => fmt1 (roundToDouble (100 *
      roundToDouble ((t.2 : ℚ) / (sumValues c : ℚ)))) ++ "%")
    (sortLe leCountName (most_common c n)) hpct]
  simp only [except_bind_ok]
  rw [zip3_map]
  simp [String.append_assoc]

/-- C6 witness: the counter of the end-to-end scenario of the spec,
nurse two and welder three, top two: the amended equality holds at a
concrete input (the body is WELDER;3;60.0% then NURSE;2;40.0%). -/
theorem gen_counter_text_amended_witness :
    gen_counter_text [("nurse", 2), ("welder", 3)] 2 ";" =
      .ok (gen_counter_spec [("nurse", 2), ("welder", 3)] 2 ";") ∧
    gen_counter_spec [("nurse", 2), ("welder", 3)] 2 ";" =
      ["WELDER;3;60.0%\n", "NURSE;2;40.0%\n"] := by
  refine ⟨gen_counter_text_amended [("nurse", 2), ("welder", 3)] 2 ";"
    (by decide) (by decide) (by decide), ?_⟩
  rfl
